import Mathlib

/-!
Shallow embedding of the value-codec layer in
`src/clickhouse_connect/datatypes/special.py` (row-oriented and bulk
columnar wire formats for UUID, FixedString, Nothing, Array, Tuple, Map and
the aggregate-function placeholders), together with proofs settling the
specification claims about it.

Byte buffers are embedded as `List Nat` (each entry one byte, < 256);
Python slices `source[a:b]` become `byteSlice`, which clamps at the end of
the buffer exactly as Python slicing does.  Fallible operations return
`Except CHError`; `CHError` covers the exception kinds the source can
raise (`DriverError`, `NotSupportedError`, and Python `TypeError`).
-/

/-- Exception kinds raised by the source module: `DriverError` (configuration
errors such as nested arrays), `NotSupportedError` (aggregate-function
(de)serialization) and Python's built-in `TypeError` (arity/type misuse). -/
inductive CHError where
  | driverError
  | notSupportedError
  | typeError
  deriving DecidableEq, Repr

/-- Decoded native values transferred to the caller: byte strings, text
strings, 128-bit identifiers (a Python `UUID` stores its value as the
128-bit integer `int`, which is what `uuid` carries), the absence-of-value
result of the `Nothing` type, ordered sequences, fixed-arity tuples, and
insertion-ordered key/value mappings. -/
inductive Value where
  | bytes (bs : List Nat)
  | str (s : String)
  | uuid (n : Nat)
  | null
  | list (vs : List Value)
  | tup (vs : List Value)
  | dict (kvs : List (Value × Value))

/-- Python slice `source[loc:loc+len]`: at most `len` bytes starting at
`loc`, silently clamped at the end of the buffer. -/
def byteSlice (source : List Nat) (loc len : Nat) : List Nat :=
  (source.drop loc).take len

/-- Python `int.from_bytes(bs, 'little')`. -/
def intFromLE : List Nat → Nat
  | [] => 0
  | b :: rest => b + 256 * intFromLE rest

/-- Python `int.from_bytes(bs, 'big')`. -/
def intFromBE (bs : List Nat) : Nat :=
  intFromLE bs.reverse

/-- Python `n.to_bytes(w, 'big')` (defined for `n < 256 ^ w`, which is the
only way the source uses it). -/
def toBytesBE : Nat → Nat → List Nat
  | 0, _ => []
  | w + 1, n => toBytesBE w (n / 256) ++ [n % 256]

/-- Modelled from the spec: the external length-prefix primitive
`read_leb128` (`clickhouse_connect.driver.rowbinary`, not under `src/`)
decodes a non-negative integer from a variable-length (LEB128) byte
sequence.  Returns the value and the number of bytes consumed. -/
def readLeb128From : List Nat → Nat × Nat
  | [] => (0, 0)
  | b :: rest =>
    if b < 128 then (b, 1)
    else
      let p := readLeb128From rest
      (b % 128 + p.1 * 128, p.2 + 1)

/-- Modelled from the spec: `read_leb128(source, loc)` returns the decoded
count and the position of the first unconsumed byte. -/
def read_leb128 (source : List Nat) (loc : Nat) : Nat × Nat :=
  let p := readLeb128From (source.drop loc)
  (p.1, loc + p.2)

/-- Fuel-indexed worker for `to_leb128`; the fuel `n + 1` always suffices
because the value shrinks by a factor of 128 every step. -/
def toLeb128Fuel : Nat → Nat → List Nat
  | 0, _ => []
  | fuel + 1, n => if n < 128 then [n] else (n % 128 + 128) :: toLeb128Fuel fuel (n / 128)

/-- Modelled from the spec: the external length-prefix primitive
`to_leb128` encodes a non-negative count as a variable-length (LEB128)
byte sequence. -/
def to_leb128 (n : Nat) : List Nat :=
  toLeb128Fuel (n + 1) n

/-! ## UUID codec (`class UUID`) -/

/-- Embeds `UUID._from_row_binary`: read two 8-byte little-endian words,
reassemble them big-endian (high half then low half) and build the
identifier from those 16 standard-order bytes; `PyUUID(bytes=b)` stores
the integer `int.from_bytes(b, 'big')`.  Python slicing never raises here,
so the result is always `ok`. -/
def UUID.from_row_binary (source : List Nat) (loc : Nat) : Except CHError (Value × Nat) :=
  let int_high := intFromLE (byteSlice source loc 8)
  let int_low := intFromLE (byteSlice source (loc + 8) 8)
  let byte_value := toBytesBE 8 int_high ++ toBytesBE 8 int_low
  Except.ok (Value.uuid (intFromBE byte_value), loc + 16)

/-- Embeds `UUID._to_row_binary`: split the 16 standard-order bytes
(`value.bytes`, i.e. the big-endian form of the 128-bit integer) into two
8-byte halves, reverse each half independently, and append high half then
low half to `dest`. -/
def UUID.to_row_binary (value : Nat) (dest : List Nat) : List Nat :=
  let source := toBytesBE 16 value
  let bytes_high := (source.take 8).reverse
  let bytes_low := (source.drop 8).reverse
  dest ++ (bytes_high ++ bytes_low)

/-- Embeds `UUID.from_native`: unpack `2 * num_rows` little-endian 64-bit
words in one pass (`struct.unpack_from` fails if the buffer holds fewer
than `16 * num_rows` bytes past `loc`, hence the `Option`), then build
each identifier directly as `high <<< 64 ||| low` through the trusted
`PyUUID.__new__`/`object.__setattr__` path.  The `must_swap` argument is
accepted and ignored, exactly as in the source. -/
def UUID.from_native (source : List Nat) (loc num_rows : Nat) (must_swap : Bool) :
    Option (List Value × Nat) :=
  if loc + num_rows * 16 ≤ source.length then
    some ((List.range num_rows).map fun ix =>
      let hi := intFromLE (byteSlice source (loc + ix * 16) 8)
      let lo := intFromLE (byteSlice source (loc + ix * 16 + 8) 8)
      Value.uuid (hi <<< 64 ||| lo), loc + num_rows * 16)
  else none

/-! ## FixedString codec (`class FixedString` and `fixed_string_format`) -/

/-- The three output strategies a `FixedString` class can be configured
with (`FixedString._transform`): raw bytes (`_fixed_string_binary`),
decode-as-text (`_fixed_string_decode`) or hex rendering (`_hex_string`). -/
inductive FSTransformKind where
  | fixed_string_binary
  | fixed_string_decode
  | hex_string
  deriving DecidableEq, Repr

/-- The configured `FixedString._encode_error` fallback used when
decode-as-text fails: the default raw-bytes function, the hex renderer, or
the `lambda cls: '<binary data>'` installed for a non-hex error policy.
That lambda takes a single parameter, yet `_fixed_string_decode` invokes
`cls._encode_error(value)` — a bound classmethod call carrying two
arguments — so selecting it makes the fallback raise `TypeError`. -/
inductive FSEncodeErrorKind where
  | fixed_string_binary
  | hex_string
  | binary_data_lambda
  deriving DecidableEq, Repr

/-- Process-wide `FixedString` class configuration: the output strategy,
the configured text encoding (embedded by its decode and encode
functions, since the source stores the codec name `cls._encoding` and
defers to Python's codec machinery), and the error fallback. -/
structure FSConfig where
  transform : FSTransformKind
  textDecode : List Nat → Option String
  textEncode : String → List Nat
  encodeError : FSEncodeErrorKind

/-- One hex digit, lowercase, as produced by `binascii.hexlify`. -/
def hexDigit (n : Nat) : Char :=
  if n < 10 then Char.ofNat (48 + n) else Char.ofNat (97 + (n - 10))

/-- Embeds `hexlify(value).decode('utf8')`: two lowercase hex digits per
byte. -/
def hexString (bs : List Nat) : String :=
  String.mk (bs.foldr (fun b acc => hexDigit (b / 16 % 16) :: hexDigit (b % 16) :: acc) [])

/-- Runs the configured `_encode_error` fallback on the raw bytes.  The
`binary_data_lambda` case is the source's `lambda cls: '<binary data>'`:
the call site passes the value as a second positional argument to a
one-parameter callable, which raises `TypeError` in Python. -/
def runFSEncodeError (cfg : FSConfig) (v : List Nat) : Except CHError Value :=
  match cfg.encodeError with
  | .fixed_string_binary => .ok (.bytes v)
  | .hex_string => .ok (.str (hexString v))
  | .binary_data_lambda => .error .typeError

/-- Runs the configured `_transform` on one fixed-width slice:
`_fixed_string_binary` returns the raw bytes, `_fixed_string_decode`
attempts text decoding and falls back to `_encode_error` on failure,
`_hex_string` always renders hex. -/
def runFSTransform (cfg : FSConfig) (v : List Nat) : Except CHError Value :=
  match cfg.transform with
  | .fixed_string_binary => .ok (.bytes v)
  | .fixed_string_decode =>
    match cfg.textDecode v with
    | some s => .ok (.str s)
    | none => runFSEncodeError cfg v
  | .hex_string => .ok (.str (hexString v))

/-- Embeds `FixedString._from_row_binary`: apply the configured transform
to the slice `source[loc:loc+size]` and advance by `size` (Python slicing
silently truncates the slice when the buffer is shorter). -/
def FixedString.from_row_binary (cfg : FSConfig) (size : Nat) (source : List Nat) (loc : Nat) :
    Except CHError (Value × Nat) :=
  match runFSTransform cfg (byteSlice source loc size) with
  | .ok v => .ok (v, loc + size)
  | .error e => .error e

/-- Embeds `FixedString._to_row_binary`: a text value is first encoded
with the configured encoding, then the bytes are appended verbatim; any
other value kind makes `dest += value` raise `TypeError`. -/
def FixedString.to_row_binary (cfg : FSConfig) (value : Value) (dest : List Nat) :
    Except CHError (List Nat) :=
  match value with
  | .str s => .ok (dest ++ cfg.textEncode s)
  | .bytes bs => .ok (dest ++ bs)
  | _ => .error .typeError

/-- Embeds `FixedString.from_native`: the bulk path slices `num_rows` raw
fixed-width byte strings and advances by `size * num_rows`.  The class
configuration is in scope (Python class state) but never consulted, and
`must_swap` is ignored, exactly as in the source. -/
def FixedString.from_native (cfg : FSConfig) (size : Nat) (source : List Nat)
    (loc num_rows : Nat) (must_swap : Bool) : List Value × Nat :=
  ((List.range num_rows).map fun ix => Value.bytes (byteSlice source (loc + ix * size) size),
   loc + size * num_rows)

/-- Embeds `fixed_string_format`: installs the process-wide output
strategy on the `FixedString` class.  `'decode'` also installs the text
encoding and chooses the error fallback (`'hex'` selects the hex renderer,
anything else the one-parameter `'<binary data>'` lambda). -/
def fixed_string_format (method : String) (textDecode : List Nat → Option String)
    (textEncode : String → List Nat) (encoding_error : String) (cfg : FSConfig) : FSConfig :=
  if method = "binary" then { cfg with transform := .fixed_string_binary }
  else if method = "decode" then
    { cfg with
        transform := .fixed_string_decode
        textDecode := textDecode
        textEncode := textEncode
        encodeError := if encoding_error = "hex" then .hex_string else .binary_data_lambda }
  else if method = "hex" then { cfg with transform := .hex_string }
  else cfg

/-- Python's `'ascii'` codec, decode direction: valid iff every byte is
below 128. -/
def asciiDecode (bs : List Nat) : Option String :=
  if bs.all (fun b => b < 128) then some (String.mk (bs.map Char.ofNat)) else none

/-- Python's `'ascii'` codec, encode direction (on ASCII text). -/
def asciiEncode (s : String) : List Nat :=
  s.data.map Char.toNat

/-- The `FixedString` class state before any `fixed_string_format` call:
`_transform` and `_encode_error` are `_fixed_string_binary`; the encoding
functions are irrelevant under the binary strategy. -/
def fsBinaryConfig : FSConfig :=
  { transform := .fixed_string_binary
    textDecode := asciiDecode
    textEncode := asciiEncode
    encodeError := .fixed_string_binary }

/-! ## Nothing codec (`class Nothing`) -/

/-- Embeds the body of `Nothing._from_row_binary`: no value, position
unchanged.  (The source declares the staticmethod with a stray leading
`self` parameter; the body only uses `source` and `loc`.) -/
def ChNothing.from_row_binary (source : List Nat) (loc : Nat) : Except CHError (Value × Nat) :=
  .ok (.null, loc)

/-- Embeds `Nothing._to_row_binary`: `pass`, appending nothing to `dest`. -/
def ChNothing.to_row_binary (value : Value) (dest : List Nat) : List Nat :=
  dest

/-! ## Array codec (`class Array`) -/

/-- Type names resolvable by the external registry, restricted to the
types this module implements; an `array` name carries its element type
name. -/
inductive ChName where
  | uuid
  | fixed_string (size : Nat)
  | nothing
  | array (elem : ChName)
  | aggregate_function
  deriving DecidableEq, Repr

/-- Embeds `isinstance(self.element_type, Array)`: whether a resolved name
denotes an array codec. -/
def isArrayName : ChName → Bool
  | .array _ => true
  | _ => false

/-- The state an `Array` codec instance keeps: its resolved element type. -/
structure ArrayType where
  element_type : ChName
  deriving DecidableEq, Repr

/-- Embeds `Array.__init__`: resolve the element type name (the external
registry `get_from_name` is modelled as the identity on `ChName`) and
raise `DriverError` when the element type is itself an array. -/
def ChArray.init (elem : ChName) : Except CHError ArrayType :=
  if isArrayName elem then .error .driverError else .ok ⟨elem⟩

/-- Decodes `n` consecutive values with the row-oriented decoder `dec`,
threading the position, as the `for x in range(size)` loop of
`Array._from_row_binary` does. -/
def decodeSeq (dec : List Nat → Nat → Except CHError (Value × Nat)) :
    Nat → List Nat → Nat → Except CHError (List Value × Nat)
  | 0, _, loc => .ok ([], loc)
  | n + 1, source, loc =>
    match dec source loc with
    | .error e => .error e
    | .ok (v, loc1) =>
      match decodeSeq dec n source loc1 with
      | .error e => .error e
      | .ok (vs, loc2) => .ok (v :: vs, loc2)

/-- Embeds `Array._from_row_binary`: read the LEB128 length prefix, then
decode that many elements sequentially with the element codec
(`self.element_type.from_row_binary`, passed in as `elem_dec`). -/
def ChArray.from_row_binary (elem_dec : List Nat → Nat → Except CHError (Value × Nat))
    (source : List Nat) (loc : Nat) : Except CHError (Value × Nat) :=
  let p := read_leb128 source loc
  match decodeSeq elem_dec p.1 source p.2 with
  | .error e => .error e
  | .ok (vs, loc2) => .ok (.list vs, loc2)

/-- Embeds `Array._to_row_binary`: append the LEB128 length prefix, then
each element encoded by the element codec. -/
def ChArray.to_row_binary (elem_enc : Value → List Nat → Except CHError (List Nat))
    (values : List Value) (dest : List Nat) : Except CHError (List Nat) :=
  values.foldlM (fun d v => elem_enc v d) (dest ++ to_leb128 values.length)

/-- Embeds the offsets read of `Array.from_native`: `num_rows` unsigned
64-bit words starting at `loc`, each read little-endian after the
optional byteswap (`array('Q').byteswap()` reverses the bytes of every
8-byte item, so a swapped word is the big-endian reading). -/
def arrayOffsets (source : List Nat) (loc num_rows : Nat) (must_swap : Bool) : List Nat :=
  (List.range num_rows).map fun i =>
    let w := byteSlice source (loc + 8 * i) 8
    intFromLE (if must_swap then w.reverse else w)

/-- Embeds the per-row loop of `Array.from_native`: for each offset the
row element count is `offset - last`, that many elements are decoded with
the element codec's bulk decode `conv`, the optional `to_python` transform
`conv_py` is applied to the row, and `last` becomes the current offset. -/
def arrayNativeLoop (conv : List Nat → Nat → Nat → Bool → List Value × Nat)
    (conv_py : Option (List Value → List Value)) (source : List Nat) (must_swap : Bool) :
    List Nat → Nat → Nat → List (List Value) × Nat
  | [], loc, _ => ([], loc)
  | offset :: rest, loc, last =>
    let p := conv source loc (offset - last) must_swap
    let val_list := match conv_py with
      | some f => f p.1
      | none => p.1
    let q := arrayNativeLoop conv conv_py source must_swap rest p.2 offset
    (val_list :: q.1, q.2)

/-- Embeds `Array.from_native`: read the `num_rows` cumulative offsets
(8 bytes each), then decode each row's elements from the flattened
payload that follows. -/
def ChArray.from_native (conv : List Nat → Nat → Nat → Bool → List Value × Nat)
    (conv_py : Option (List Value → List Value)) (source : List Nat)
    (loc num_rows : Nat) (must_swap : Bool) : List (List Value) × Nat :=
  let offsets := arrayOffsets source loc num_rows must_swap
  arrayNativeLoop conv conv_py source must_swap offsets (loc + num_rows * 8) 0

/-! ## Tuple codec (`class Tuple`) -/

/-- Decodes one value per sub-codec of `self.from_rb_funcs`, in declared
order, threading the position. -/
def tupleDecodeFields : List (List Nat → Nat → Except CHError (Value × Nat)) →
    List Nat → Nat → Except CHError (List Value × Nat)
  | [], _, loc => .ok ([], loc)
  | conv :: rest, source, loc =>
    match conv source loc with
    | .error e => .error e
    | .ok (v, loc1) =>
      match tupleDecodeFields rest source loc1 with
      | .error e => .error e
      | .ok (vs, loc2) => .ok (v :: vs, loc2)

/-- Embeds `Tuple._from_row_binary`: decode each declared element in order
and assemble the fixed-arity tuple. -/
def ChTuple.from_row_binary (convs : List (List Nat → Nat → Except CHError (Value × Nat)))
    (source : List Nat) (loc : Nat) : Except CHError (Value × Nat) :=
  match tupleDecodeFields convs source loc with
  | .error e => .error e
  | .ok (vs, loc2) => .ok (.tup vs, loc2)

/-- Embeds `Tuple._to_row_binary`: `zip(values, self.to_rb_funcs)`, each
sub-codec encoding its corresponding value in order (truncating at the
shorter of the two, as `zip` does). -/
def ChTuple.to_row_binary (convs : List (Value → List Nat → Except CHError (List Nat)))
    (values : List Value) (dest : List Nat) : Except CHError (List Nat) :=
  (values.zip convs).foldlM (fun d p => p.2 p.1 d) dest

/-! ## Map codec (`class Map`) -/

mutual

/-- Structural equality on `Value`, embedding Python `==` as used by
`dict` key lookup. -/
def Value.beq : Value → Value → Bool
  | .bytes x, .bytes y => x == y
  | .str x, .str y => x == y
  | .uuid x, .uuid y => x == y
  | .null, .null => true
  | .list xs, .list ys => Value.beqList xs ys
  | .tup xs, .tup ys => Value.beqList xs ys
  | .dict xs, .dict ys => Value.beqPairs xs ys
  | _, _ => false

/-- Elementwise `Value.beq` on sequences. -/
def Value.beqList : List Value → List Value → Bool
  | [], [] => true
  | x :: xs, y :: ys => Value.beq x y && Value.beqList xs ys
  | _, _ => false

/-- Elementwise `Value.beq` on key/value pair lists. -/
def Value.beqPairs : List (Value × Value) → List (Value × Value) → Bool
  | [], [] => true
  | (k, v) :: xs, (k2, v2) :: ys => Value.beq k k2 && Value.beq v v2 && Value.beqPairs xs ys
  | _, _ => false

end

/-- Embeds `values[key] = value` on a Python `dict` kept as an
insertion-ordered association list: an existing key is overwritten in
place, a new key is appended. -/
def dictInsert (kvs : List (Value × Value)) (k v : Value) : List (Value × Value) :=
  if kvs.any fun p => Value.beq p.1 k then
    kvs.map fun p => if Value.beq p.1 k then (p.1, v) else p
  else kvs ++ [(k, v)]

/-- Embeds the pair loop of `Map._from_row_binary`: decode a key then its
value, insert into the mapping (last write wins), repeat `n` times. -/
def mapDecodePairs (key_from value_from : List Nat → Nat → Except CHError (Value × Nat)) :
    Nat → List Nat → Nat → List (Value × Value) → Except CHError (List (Value × Value) × Nat)
  | 0, _, loc, acc => .ok (acc, loc)
  | n + 1, source, loc, acc =>
    match key_from source loc with
    | .error e => .error e
    | .ok (key, loc1) =>
      match value_from source loc1 with
      | .error e => .error e
      | .ok (value, loc2) =>
        mapDecodePairs key_from value_from n source loc2 (dictInsert acc key value)

/-- Embeds `Map._from_row_binary`: read the LEB128 length prefix, then
that many (key, value) pairs with the respective sub-codecs. -/
def ChMap.from_row_binary (key_from value_from : List Nat → Nat → Except CHError (Value × Nat))
    (source : List Nat) (loc : Nat) : Except CHError (Value × Nat) :=
  let p := read_leb128 source loc
  match mapDecodePairs key_from value_from p.1 source p.2 [] with
  | .error e => .error e
  | .ok (kvs, loc2) => .ok (.dict kvs, loc2)

/-- Embeds `Map._to_row_binary`: iterate the mapping in insertion order,
appending `key_to(key)` and then `value_to(key)` for each pair — the
source passes the key to the value codec as well — and emit no length
prefix.  The sub-codec calls are read as producing the encoded bytes of
their argument. -/
def ChMap.to_row_binary (key_to value_to : Value → Except CHError (List Nat)) :
    List (Value × Value) → Except CHError (List Nat)
  | [] => .ok []
  | (key, _value) :: rest =>
    match key_to key with
    | .error e => .error e
    | .ok kb =>
      match value_to key with
      | .error e => .error e
      | .ok vb =>
        match ChMap.to_row_binary key_to value_to rest with
        | .error e => .error e
        | .ok restb => .ok (kb ++ vb ++ restb)

/-! ## Aggregate-function codecs -/

/-- Embeds `AggregateFunction._from_row_binary`: always raises
`NotSupportedError`. -/
def AggregateFunction.from_row_binary (source : List Nat) (loc : Nat) :
    Except CHError (Value × Nat) :=
  .error .notSupportedError

/-- Embeds `AggregateFunction._to_row_binary`: always raises
`NotSupportedError`. -/
def AggregateFunction.to_row_binary (value : Value) : Except CHError (List Nat) :=
  .error .notSupportedError

/-- Embeds `SimpleAggregateFunction._from_row_binary`: delegate unchanged
to the underlying value type's row decode. -/
def SimpleAggregateFunction.from_row_binary
    (elem_dec : List Nat → Nat → Except CHError (Value × Nat))
    (source : List Nat) (loc : Nat) : Except CHError (Value × Nat) :=
  elem_dec source loc

/-- Embeds `SimpleAggregateFunction._to_row_binary`: delegate unchanged to
the underlying value type's row encode. -/
def SimpleAggregateFunction.to_row_binary (elem_enc : Value → Except CHError (List Nat))
    (value : Value) : Except CHError (List Nat) :=
  elem_enc value

/-! ## Concrete sample inputs used by claim witnesses -/

/-- Encoder obtained from a binary-strategy `FixedString` sub-codec:
`to_row_binary` appending to a fresh buffer, read as producing the
encoded bytes of its argument. -/
def fsEncodeBytes (v : Value) : Except CHError (List Nat) :=
  FixedString.to_row_binary fsBinaryConfig v []

/-- Sample mapping `{b'K': b'VW'}` for a `Map(FixedString(1),
FixedString(2))` codec. -/
def c1SampleMap : List (Value × Value) :=
  [(Value.bytes [75], Value.bytes [86, 87])]

/-- Sample bulk-array buffer: cumulative offsets `[2, 2, 5]` as three
little-endian 64-bit words followed by five one-byte elements. -/
def c6SampleSource : List Nat :=
  ([2] ++ List.replicate 7 0) ++ ([2] ++ List.replicate 7 0) ++
    ([5] ++ List.replicate 7 0) ++ [10, 11, 12, 13, 14]

/-- Sample bulk-UUID buffer: 32 nonzero bytes, two 16-byte wire values. -/
def c4SampleSource : List Nat :=
  [17, 203, 5, 99, 140, 61, 254, 8,
   73, 112, 9, 188, 41, 230, 77, 3,
   159, 26, 244, 55, 131, 90, 12, 201,
   66, 148, 29, 250, 83, 119, 47, 222]

/-! ## Byte/integer conversion lemmas -/

theorem length_toBytesBE (w : Nat) : ∀ n, (toBytesBE w n).length = w := by
  induction w with
  | zero => intro n; rfl
  | succ w ih => intro n; simp [toBytesBE, ih]

theorem intFromLE_append (xs ys : List Nat) :
    intFromLE (xs ++ ys) = intFromLE xs + 256 ^ xs.length * intFromLE ys := by
  induction xs with
  | nil => simp [intFromLE]
  | cons b xs ih => simp [intFromLE, ih, List.length_cons, pow_succ]; ring

theorem intFromBE_snoc (xs : List Nat) (b : Nat) :
    intFromBE (xs ++ [b]) = 256 * intFromBE xs + b := by
  simp [intFromBE, List.reverse_append, intFromLE]
  ring

theorem intFromLE_lt (l : List Nat) (h : ∀ b ∈ l, b < 256) :
    intFromLE l < 256 ^ l.length := by
  induction l with
  | nil => simp [intFromLE]
  | cons b t ih =>
    have hb : b < 256 := h b (List.mem_cons_self b t)
    have ht : intFromLE t < 256 ^ t.length := ih fun x hx => h x (List.mem_cons_of_mem b hx)
    have hp : (256 : Nat) ^ (t.length + 1) = 256 ^ t.length * 256 := pow_succ 256 t.length
    simp only [intFromLE, List.length_cons, hp]
    omega

theorem intFromBE_lt (l : List Nat) (h : ∀ b ∈ l, b < 256) :
    intFromBE l < 256 ^ l.length := by
  have := intFromLE_lt l.reverse (fun b hb => h b (List.mem_reverse.mp hb))
  simpa [intFromBE] using this

theorem intFromBE_toBytesBE (w : Nat) : ∀ n, n < 256 ^ w → intFromBE (toBytesBE w n) = n := by
  induction w with
  | zero =>
    intro n hn
    interval_cases n
    rfl
  | succ w ih =>
    intro n hn
    have hd : n / 256 < 256 ^ w := by
      have : (256 : Nat) ^ (w + 1) = 256 ^ w * 256 := pow_succ 256 w
      omega
    rw [toBytesBE, intFromBE_snoc, ih _ hd]
    omega

theorem toBytesBE_intFromBE (l : List Nat) (h : ∀ b ∈ l, b < 256) :
    toBytesBE l.length (intFromBE l) = l := by
  induction l using List.reverseRecOn with
  | nil => rfl
  | append_singleton xs b ih =>
    have hb : b < 256 := h b (by simp)
    have hx : ∀ a ∈ xs, a < 256 := fun a ha => h a (by simp [ha])
    have hlen : (xs ++ [b]).length = xs.length + 1 := by simp
    rw [hlen, intFromBE_snoc, toBytesBE]
    have hdiv : (256 * intFromBE xs + b) / 256 = intFromBE xs := by omega
    have hmod : (256 * intFromBE xs + b) % 256 = b := by omega
    rw [hdiv, hmod, ih hx]

/-! ## Claim theorems -/

/-- C3: the UUID row-oriented transform is self-inverse — encoding any
16-byte standard-order identifier value and decoding the result returns
the original value — and the wire bytes produced by encode are exactly the
two 8-byte halves of the standard-order form, each half byte-reversed
independently, high half first. -/
theorem c3_uuid_row_self_inverse (u : List Nat) (h16 : u.length = 16)
    (hb : ∀ b ∈ u, b < 256) :
    UUID.to_row_binary (intFromBE u) [] = (u.take 8).reverse ++ (u.drop 8).reverse ∧
    UUID.from_row_binary (UUID.to_row_binary (intFromBE u) []) 0 =
      Except.ok (Value.uuid (intFromBE u), 16) := by
  have hbytes : toBytesBE 16 (intFromBE u) = u := by
    have := toBytesBE_intFromBE u hb
    rwa [h16] at this
  have hwire : UUID.to_row_binary (intFromBE u) [] =
      (u.take 8).reverse ++ (u.drop 8).reverse := by
    simp [UUID.to_row_binary, hbytes]
  refine ⟨hwire, ?_⟩
  have hlen_take : (u.take 8).length = 8 := by simp [h16]
  have hlen_drop : (u.drop 8).length = 8 := by simp [h16]
  have hlen_rtake : ((u.take 8).reverse).length = 8 := by simp [hlen_take]
  have hslice1 : byteSlice ((u.take 8).reverse ++ (u.drop 8).reverse) 0 8 =
      (u.take 8).reverse := by
    simp [byteSlice, List.take_left' hlen_rtake]
  have hslice2 : byteSlice ((u.take 8).reverse ++ (u.drop 8).reverse) 8 8 =
      (u.drop 8).reverse := by
    have hdrop : ((u.take 8).reverse ++ (u.drop 8).reverse).drop 8 = (u.drop 8).reverse :=
      List.drop_left' hlen_rtake
    simp [byteSlice, hdrop, List.take_of_length_le, hlen_drop]
  have htake_bytes : toBytesBE 8 (intFromLE (u.take 8).reverse) = u.take 8 := by
    have hbtake : ∀ b ∈ u.take 8, b < 256 := fun b hbm => hb b (List.mem_of_mem_take hbm)
    have := toBytesBE_intFromBE (u.take 8) hbtake
    rwa [hlen_take] at this
  have hdrop_bytes : toBytesBE 8 (intFromLE (u.drop 8).reverse) = u.drop 8 := by
    have hbdrop : ∀ b ∈ u.drop 8, b < 256 := fun b hbm => hb b (List.mem_of_mem_drop hbm)
    have := toBytesBE_intFromBE (u.drop 8) hbdrop
    rwa [hlen_drop] at this
  rw [hwire]
  simp only [UUID.from_row_binary, Nat.zero_add, hslice1, hslice2]
  rw [htake_bytes, hdrop_bytes, List.take_append_drop]

/-- Witness for C3 at the concrete identifier bytes
`00112233445566778899aabbccddeeff`. -/
theorem c3_uuid_row_self_inverse_witness :
    UUID.to_row_binary
        (intFromBE [0x00, 0x11, 0x22, 0x33, 0x44, 0x55, 0x66, 0x77,
                    0x88, 0x99, 0xaa, 0xbb, 0xcc, 0xdd, 0xee, 0xff]) [] =
      (([0x00, 0x11, 0x22, 0x33, 0x44, 0x55, 0x66, 0x77,
         0x88, 0x99, 0xaa, 0xbb, 0xcc, 0xdd, 0xee, 0xff] : List Nat).take 8).reverse ++
      (([0x00, 0x11, 0x22, 0x33, 0x44, 0x55, 0x66, 0x77,
         0x88, 0x99, 0xaa, 0xbb, 0xcc, 0xdd, 0xee, 0xff] : List Nat).drop 8).reverse ∧
    UUID.from_row_binary
        (UUID.to_row_binary
          (intFromBE [0x00, 0x11, 0x22, 0x33, 0x44, 0x55, 0x66, 0x77,
                      0x88, 0x99, 0xaa, 0xbb, 0xcc, 0xdd, 0xee, 0xff]) []) 0 =
      Except.ok (Value.uuid
        (intFromBE [0x00, 0x11, 0x22, 0x33, 0x44, 0x55, 0x66, 0x77,
                    0x88, 0x99, 0xaa, 0xbb, 0xcc, 0xdd, 0xee, 0xff]), 16) :=
  c3_uuid_row_self_inverse
    [0x00, 0x11, 0x22, 0x33, 0x44, 0x55, 0x66, 0x77,
     0x88, 0x99, 0xaa, 0xbb, 0xcc, 0xdd, 0xee, 0xff]
    (by decide) (by decide)

/-- C7: the null/void codec's row-oriented decode returns the no-value
result at an unchanged position for every buffer and position, and its
row-oriented encode appends zero bytes for any input value. -/
theorem c7_nothing_decodes_to_no_value (source : List Nat) (loc : Nat)
    (value : Value) (dest : List Nat) :
    ChNothing.from_row_binary source loc = Except.ok (Value.null, loc) ∧
    ChNothing.to_row_binary value dest = dest :=
  ⟨rfl, rfl⟩

/-- C9 counterexample: decoding a UUID row value from an empty buffer —
16 bytes short of what one logical value requires — does not fail with a
buffer-underrun error; it silently returns a value (the all-zero
identifier) and advances the position past the end of the buffer. -/
theorem c9_truncated_decode_counterexample :
    List.length ([] : List Nat) < 16 ∧
    UUID.from_row_binary [] 0 = Except.ok (Value.uuid 0, 16) :=
  ⟨by decide, rfl⟩

/-- C9 amended: truncated input is silently tolerated on the row-oriented
path — on a buffer holding fewer bytes than one logical value requires,
the UUID decode still returns a value built from the truncated
(zero-extended) slices and the fixed-width string decode returns the
truncated slice, each advancing the position by the full value width,
past the end of the buffer. -/
theorem c9_truncated_decode_amended (source : List Nat) (loc size : Nat)
    (hU : source.length < loc + 16) (hF : source.length < loc + size) :
    (∃ v, UUID.from_row_binary source loc = Except.ok (v, loc + 16)) ∧
    FixedString.from_row_binary fsBinaryConfig size source loc =
      Except.ok (Value.bytes (byteSlice source loc size), loc + size) :=
  ⟨⟨_, rfl⟩, rfl⟩

/-- Witness for the amended C9 on the empty buffer, one byte short of a
`FixedString(1)` value and sixteen short of a UUID. -/
theorem c9_truncated_decode_amended_witness :
    (∃ v, UUID.from_row_binary [] 0 = Except.ok (v, 0 + 16)) ∧
    FixedString.from_row_binary fsBinaryConfig 1 [] 0 =
      Except.ok (Value.bytes (byteSlice [] 0 1), 0 + 1) :=
  c9_truncated_decode_amended [] 0 1 (by decide) (by decide)

/-! ## Bitwise helper lemmas for the UUID bulk path -/

theorem mul_two_pow_lor_eq_add : ∀ (k a b : Nat), b < 2 ^ k → a * 2 ^ k ||| b = a * 2 ^ k + b := by
  intro k
  induction k with
  | zero =>
    intro a b hb
    interval_cases b
    simp
  | succ k ih =>
    intro a b hb
    have hpow : (2 : Nat) ^ (k + 1) = 2 ^ k * 2 := pow_succ 2 k
    have hb2 : b >>> 1 < 2 ^ k := by
      rw [Nat.shiftRight_one]
      omega
    have hbit : Nat.bit (b.testBit 0) (b >>> 1) = b := Nat.bit_testBit_zero_shiftRight_one b
    have h1 : a * 2 ^ (k + 1) = Nat.bit false (a * 2 ^ k) := by
      rw [Nat.bit_val]
      simp [hpow]
      ring
    calc a * 2 ^ (k + 1) ||| b
        = Nat.bit false (a * 2 ^ k) ||| Nat.bit (b.testBit 0) (b >>> 1) := by rw [h1, hbit]
      _ = Nat.bit (false || b.testBit 0) (a * 2 ^ k ||| b >>> 1) :=
          Nat.lor_bit false (a * 2 ^ k) (b.testBit 0) (b >>> 1)
      _ = Nat.bit (b.testBit 0) (a * 2 ^ k + b >>> 1) := by
          rw [ih a (b >>> 1) hb2, Bool.false_or]
      _ = a * 2 ^ (k + 1) + b := by
          rw [Nat.bit_val, Nat.testBit_zero, Nat.shiftRight_one, hpow]
          have hx : a * (2 ^ k * 2) = 2 * (a * 2 ^ k) := by ring
          rw [hx]
          rcases Nat.mod_two_eq_zero_or_one b with h | h <;> simp [h] <;> omega

theorem intFromBE_append (xs ys : List Nat) :
    intFromBE (xs ++ ys) = intFromBE xs * 256 ^ ys.length + intFromBE ys := by
  simp [intFromBE, List.reverse_append, intFromLE_append]
  ring

theorem mem_byteSlice (source : List Nat) (loc len b : Nat)
    (hbm : b ∈ byteSlice source loc len) : b ∈ source :=
  List.mem_of_mem_drop (List.mem_of_mem_take hbm)

theorem intFromLE_byteSlice_lt (source : List Nat) (hb : ∀ x ∈ source, x < 256)
    (loc len : Nat) : intFromLE (byteSlice source loc len) < 256 ^ len := by
  have h1 := intFromLE_lt (byteSlice source loc len)
    (fun x hx => hb x (mem_byteSlice source loc len x hx))
  have h2 : (byteSlice source loc len).length ≤ len := by
    simp [byteSlice]
  exact lt_of_lt_of_le h1 (Nat.pow_le_pow_right (by norm_num) h2)

theorem pow256_eight : (256 : Nat) ^ 8 = 2 ^ 64 := by norm_num

theorem uuid_bytes_eq_lor (hi lo : Nat) (hhi : hi < 256 ^ 8) (hlo : lo < 256 ^ 8) :
    intFromBE (toBytesBE 8 hi ++ toBytesBE 8 lo) = hi <<< 64 ||| lo := by
  have hlo64 : lo < 2 ^ 64 := pow256_eight ▸ hlo
  rw [intFromBE_append, length_toBytesBE, intFromBE_toBytesBE 8 hi hhi,
    intFromBE_toBytesBE 8 lo hlo, Nat.shiftLeft_eq,
    mul_two_pow_lor_eq_add 64 hi lo hlo64, pow256_eight]

theorem getD_map_range {α : Type} (f : Nat → α) (n i : Nat) (d : α) (h : i < n) :
    (((List.range n).map f).getD i d) = f i := by
  rw [List.getD_eq_getElem?_getD, List.getElem?_map, List.getElem?_range h]
  rfl

/-- C4: on a buffer holding `n` consecutive 16-byte UUID wire values at
`loc` (no byte swap requested), the bulk decode returns `n` identifiers,
each built as `high <<< 64 ||| low` from the row's two little-endian
64-bit words, each one equal to the identifier the row-oriented decode
produces from the same 16 bytes, and advances the position by exactly
`16 * n`. -/
theorem c4_uuid_bulk_matches_row (source : List Nat) (loc n : Nat)
    (hb : ∀ b ∈ source, b < 256) (hlen : loc + n * 16 ≤ source.length) :
    ∃ col, UUID.from_native source loc n false = some (col, loc + n * 16) ∧
      col.length = n ∧
      ∀ i, i < n →
        UUID.from_row_binary source (loc + i * 16) =
          Except.ok (col.getD i Value.null, loc + i * 16 + 16) := by
  refine ⟨(List.range n).map fun ix =>
      Value.uuid (intFromLE (byteSlice source (loc + ix * 16) 8) <<< 64 |||
        intFromLE (byteSlice source (loc + ix * 16 + 8) 8)), ?_, by simp, ?_⟩
  · simp [UUID.from_native, hlen]
  intro i hi
  rw [getD_map_range _ n i Value.null hi]
  rw [← uuid_bytes_eq_lor (intFromLE (byteSlice source (loc + i * 16) 8))
      (intFromLE (byteSlice source (loc + i * 16 + 8) 8))
      (intFromLE_byteSlice_lt source hb _ 8) (intFromLE_byteSlice_lt source hb _ 8)]
  rfl

/-- Witness for C4: a 32-byte buffer decoded as two UUID rows. -/
theorem c4_uuid_bulk_matches_row_witness :
    ∃ col, UUID.from_native c4SampleSource 0 2 false = some (col, 0 + 2 * 16) ∧
      col.length = 2 ∧
      ∀ i, i < 2 →
        UUID.from_row_binary c4SampleSource (0 + i * 16) =
          Except.ok (col.getD i Value.null, 0 + i * 16 + 16) :=
  c4_uuid_bulk_matches_row c4SampleSource 0 2 (by decide) (by decide)

/-! ## Array construction and row-decode error discipline (C5) -/

theorem UUID_from_row_binary_ne_error (s : List Nat) (l : Nat) (e : CHError) :
    UUID.from_row_binary s l ≠ Except.error e := by
  simp [UUID.from_row_binary]

theorem decodeSeq_no_driver_error (dec : List Nat → Nat → Except CHError (Value × Nat))
    (hdec : ∀ s l, dec s l ≠ Except.error CHError.driverError) :
    ∀ (n : Nat) (source : List Nat) (loc : Nat),
      decodeSeq dec n source loc ≠ Except.error CHError.driverError := by
  intro n
  induction n with
  | zero =>
    intro source loc h
    simp [decodeSeq] at h
  | succ n ih =>
    intro source loc h
    cases hd : dec source loc with
    | error e =>
      simp only [decodeSeq, hd] at h
      simp at h
      exact hdec source loc (h ▸ hd)
    | ok p =>
      obtain ⟨v, loc1⟩ := p
      simp only [decodeSeq, hd] at h
      cases hd2 : decodeSeq dec n source loc1 with
      | error e =>
        simp only [hd2] at h
        simp at h
        exact ih source loc1 (h ▸ hd2)
      | ok q =>
        obtain ⟨vs, loc2⟩ := q
        simp only [hd2] at h
        simp at h

/-- C5: constructing an array codec whose element type resolves to
another array codec fails with the configuration error (`DriverError`)
exactly then, at construction time; an array codec over a non-array
element constructs successfully; and the array row decode never raises
the configuration error (whenever its element decoder does not). -/
theorem c5_nested_array_config_error (elem : ChName)
    (elem_dec : List Nat → Nat → Except CHError (Value × Nat))
    (hdec : ∀ s l, elem_dec s l ≠ Except.error CHError.driverError) :
    (ChArray.init elem = Except.error CHError.driverError ↔ isArrayName elem = true) ∧
    (isArrayName elem = false → ChArray.init elem = Except.ok ⟨elem⟩) ∧
    ∀ source loc, ChArray.from_row_binary elem_dec source loc ≠
      Except.error CHError.driverError := by
  refine ⟨?_, ?_, ?_⟩
  · by_cases ha : isArrayName elem = true
    · simp [ChArray.init, ha]
    · simp [ChArray.init, ha]
  · intro ha
    simp [ChArray.init, ha]
  · intro source loc h
    cases hd : decodeSeq elem_dec (read_leb128 source loc).1 source (read_leb128 source loc).2 with
    | error e =>
      simp only [ChArray.from_row_binary, hd] at h
      simp at h
      exact decodeSeq_no_driver_error elem_dec hdec _ source _ (h ▸ hd)
    | ok q =>
      obtain ⟨vs, loc2⟩ := q
      simp only [ChArray.from_row_binary, hd] at h
      simp at h

/-- Witness for C5 at `Array(Array(UUID))` with the UUID element
decoder (which never errors). -/
theorem c5_nested_array_config_error_witness :
    (ChArray.init (ChName.array ChName.uuid) = Except.error CHError.driverError ↔
      isArrayName (ChName.array ChName.uuid) = true) ∧
    (isArrayName (ChName.array ChName.uuid) = false →
      ChArray.init (ChName.array ChName.uuid) = Except.ok ⟨ChName.array ChName.uuid⟩) ∧
    ∀ source loc, ChArray.from_row_binary UUID.from_row_binary source loc ≠
      Except.error CHError.driverError :=
  c5_nested_array_config_error (ChName.array ChName.uuid) UUID.from_row_binary
    (fun s l => UUID_from_row_binary_ne_error s l CHError.driverError)

/-! ## Array bulk offsets (C6) -/

theorem chain_le_getLastD : ∀ (l : List Nat) (a : Nat),
    List.Chain' (· ≤ ·) (a :: l) → a ≤ l.getLastD a := by
  intro l
  induction l with
  | nil =>
    intro a _
    simp [List.getLastD]
  | cons b t ih =>
    intro a h
    rw [List.chain'_cons] at h
    rw [List.getLastD_cons]
    exact le_trans h.1 (ih b h.2)

theorem arrayNativeLoop_spec (conv : List Nat → Nat → Nat → Bool → List Value × Nat)
    (w : Nat) (source : List Nat) (must_swap : Bool)
    (hconv : ∀ l c, ∃ vs, conv source l c must_swap = (vs, l + c * w) ∧ vs.length = c) :
    ∀ (offs : List Nat) (loc last : Nat), List.Chain' (· ≤ ·) (last :: offs) →
      ∃ col, arrayNativeLoop conv none source must_swap offs loc last =
          (col, loc + (offs.getLastD last - last) * w) ∧
        col.map List.length = List.zipWith (fun a b => a - b) offs (last :: offs) ∧
        (col.map List.length).sum = offs.getLastD last - last := by
  intro offs
  induction offs with
  | nil =>
    intro loc last _
    exact ⟨[], by simp [arrayNativeLoop, List.getLastD], by simp, by simp [List.getLastD]⟩
  | cons o rest ih =>
    intro loc last hch
    rw [List.chain'_cons] at hch
    obtain ⟨vs, hvs, hlen⟩ := hconv loc (o - last)
    obtain ⟨col', hcol', hmap', hsum'⟩ := ih (loc + (o - last) * w) o hch.2
    have hlast : last ≤ o := hch.1
    have hg : o ≤ rest.getLastD o := chain_le_getLastD rest o hch.2
    have harith : loc + (o - last) * w + (rest.getLastD o - o) * w =
        loc + (rest.getLastD o - last) * w := by
      have hsub : (o - last) + (rest.getLastD o - o) = rest.getLastD o - last := by omega
      rw [add_assoc, ← Nat.add_mul, hsub]
    refine ⟨vs :: col', ?_, ?_, ?_⟩
    · simp only [arrayNativeLoop, hvs, hcol', List.getLastD_cons]
      rw [← harith]
    · simp [hlen, hmap']
    · rw [List.getLastD_cons]
      simp only [List.map_cons, List.sum_cons, hlen, hsum']
      omega

/-- C6: the array bulk decode over `num_rows` rows reads the `num_rows`
leading 64-bit words as a cumulative offsets array (byte-swapped when
requested); row `i` decodes exactly `offset[i] - offset[i-1]` elements
(`offset[-1] = 0`) in row order without overlap or gap — the final
position is the offsets block plus exactly `getLastD * w` element bytes —
a zero-count row decodes to an empty sequence consuming zero element
bytes, and the total number of elements decoded equals the final offset
value. -/
theorem c6_array_bulk_offsets (conv : List Nat → Nat → Nat → Bool → List Value × Nat)
    (w : Nat) (source : List Nat) (loc num_rows : Nat) (offs : List Nat) (must_swap : Bool)
    (hconv : ∀ l c, ∃ vs, conv source l c must_swap = (vs, l + c * w) ∧ vs.length = c)
    (hoffs : arrayOffsets source loc num_rows must_swap = offs)
    (hmono : List.Chain' (· ≤ ·) (0 :: offs)) :
    ∃ col, ChArray.from_native conv none source loc num_rows must_swap =
        (col, loc + num_rows * 8 + (offs.getLastD 0) * w) ∧
      col.length = num_rows ∧
      col.map List.length = List.zipWith (fun a b => a - b) offs (0 :: offs) ∧
      (col.map List.length).sum = offs.getLastD 0 := by
  obtain ⟨col, hcol, hmap, hsum⟩ :=
    arrayNativeLoop_spec conv w source must_swap hconv offs (loc + num_rows * 8) 0 hmono
  refine ⟨col, ?_, ?_, hmap, by simpa using hsum⟩
  · simp only [ChArray.from_native, hoffs, hcol, Nat.sub_zero]
  · have h1 : offs.length = num_rows := by
      rw [← hoffs]
      simp [arrayOffsets]
    have h2 := congrArg List.length hmap
    simp [List.length_zipWith] at h2
    omega

theorem fixedString_from_native_as_conv (cfg : FSConfig) (size : Nat) (source : List Nat)
    (must_swap : Bool) :
    ∀ l c, ∃ vs, FixedString.from_native cfg size source l c must_swap = (vs, l + c * size) ∧
      vs.length = c := by
  intro l c
  refine ⟨(List.range c).map fun ix => Value.bytes (byteSlice source (l + ix * size) size),
    ?_, by simp⟩
  simp only [FixedString.from_native, Nat.mul_comm size c]

/-- Witness for C6 on the sample buffer with offsets `[2, 2, 5]` over 3
rows of one-byte elements: row counts `[2, 0, 3]`, five element bytes in
total. -/
theorem c6_array_bulk_offsets_witness :
    ∃ col, ChArray.from_native (FixedString.from_native fsBinaryConfig 1) none
        c6SampleSource 0 3 false =
        (col, 0 + 3 * 8 + (([2, 2, 5] : List Nat).getLastD 0) * 1) ∧
      col.length = 3 ∧
      col.map List.length = List.zipWith (fun a b => a - b) [2, 2, 5] (0 :: [2, 2, 5]) ∧
      (col.map List.length).sum = ([2, 2, 5] : List Nat).getLastD 0 :=
  c6_array_bulk_offsets (FixedString.from_native fsBinaryConfig 1) 1 c6SampleSource 0 3
    [2, 2, 5] false
    (fixedString_from_native_as_conv fsBinaryConfig 1 c6SampleSource false)
    (by decide)
    (by simp [List.chain'_cons])

/-! ## FixedString bulk path (C10) -/

/-- C10: for every configured output strategy the fixed-width string bulk
decode returns the tuple of raw fixed-width byte slices — row `ix` is the
`size`-byte slice at `loc + ix * size`, of full length whenever the
buffer holds `size * num_rows` bytes past `loc` — advances the position by
exactly `size * num_rows`, and is entirely independent of the configured
strategy, which only the row-oriented path applies. -/
theorem c10_fixed_string_bulk_raw (cfg : FSConfig) (size : Nat) (source : List Nat)
    (loc num_rows : Nat) (must_swap : Bool)
    (hlen : loc + size * num_rows ≤ source.length) :
    FixedString.from_native cfg size source loc num_rows must_swap =
      ((List.range num_rows).map fun ix => Value.bytes (byteSlice source (loc + ix * size) size),
       loc + size * num_rows) ∧
    (∀ ix, ix < num_rows → (byteSlice source (loc + ix * size) size).length = size) ∧
    ∀ cfg2 swap2, FixedString.from_native cfg2 size source loc num_rows swap2 =
      FixedString.from_native cfg size source loc num_rows must_swap := by
  refine ⟨rfl, ?_, fun cfg2 swap2 => rfl⟩
  intro ix hix
  have hmul : (ix + 1) * size ≤ num_rows * size :=
    Nat.mul_le_mul_right size hix
  have h1 : loc + ix * size + size ≤ source.length := by
    have hx : ix * size + size = (ix + 1) * size := by ring
    have hy : num_rows * size = size * num_rows := Nat.mul_comm num_rows size
    omega
  simp only [byteSlice, List.length_take, List.length_drop]
  omega

/-- Witness for C10: four bytes decoded as two rows of `FixedString(2)`
under the binary strategy. -/
theorem c10_fixed_string_bulk_raw_witness :
    FixedString.from_native fsBinaryConfig 2 [1, 2, 3, 4] 0 2 false =
      ((List.range 2).map fun ix => Value.bytes (byteSlice [1, 2, 3, 4] (0 + ix * 2) 2),
       0 + 2 * 2) ∧
    (∀ ix, ix < 2 → (byteSlice [1, 2, 3, 4] (0 + ix * 2) 2).length = 2) ∧
    ∀ cfg2 swap2, FixedString.from_native cfg2 2 [1, 2, 3, 4] 0 2 swap2 =
      FixedString.from_native fsBinaryConfig 2 [1, 2, 3, 4] 0 2 false :=
  c10_fixed_string_bulk_raw fsBinaryConfig 2 [1, 2, 3, 4] 0 2 false (by decide)

/-! ## Map encode defect (C1, C2) -/

set_option maxRecDepth 8192 in
/-- C1: round-trip fails on the map codec.  For the mapping
`{b'K': b'VW'}` under `Map(FixedString(1), FixedString(2))`, the
row-oriented encode produces `b'KK'` (the key encoded twice, no length
prefix), and decoding those bytes yields the mapping
`{b'K': b'', b'': b''}` at position 226 — not the original value, so
`decode_one(encode_one(v)) = v` does not hold for every supported type. -/
theorem c1_map_round_trip_fails :
    ChMap.to_row_binary fsEncodeBytes fsEncodeBytes c1SampleMap = Except.ok [75, 75] ∧
    ChMap.from_row_binary (FixedString.from_row_binary fsBinaryConfig 1)
        (FixedString.from_row_binary fsBinaryConfig 2) [75, 75] 0 =
      Except.ok (Value.dict [(Value.bytes [75], Value.bytes []),
        (Value.bytes [], Value.bytes [])], 226) ∧
    Value.dict [(Value.bytes [75], Value.bytes []), (Value.bytes [], Value.bytes [])] ≠
      Value.dict c1SampleMap := by
  refine ⟨rfl, rfl, ?_⟩
  intro h
  simp [c1SampleMap] at h

/-- C2: the map row-oriented encode does not write, for each pair, the
key followed by that key's value, preceded by a pair-count length prefix.
On `{b'K': b'VW'}` it emits `b'KK'` — the key bytes twice with no prefix —
whereas the claimed layout is `b'\x01KVW'`. -/
theorem c2_map_encode_defect :
    ChMap.to_row_binary fsEncodeBytes fsEncodeBytes c1SampleMap = Except.ok [75, 75] ∧
    fsEncodeBytes (Value.bytes [75]) = Except.ok [75] ∧
    fsEncodeBytes (Value.bytes [86, 87]) = Except.ok [86, 87] ∧
    to_leb128 c1SampleMap.length = [1] ∧
    ([75, 75] : List Nat) ≠ [1] ++ [75] ++ [86, 87] :=
  ⟨rfl, rfl, rfl, rfl, by decide⟩

/-! ## FixedString decode-as-text fallback (C8) -/

/-- C8: with the decode-as-text strategy over the ASCII encoding and the
invalid byte `0xff`, the hex error policy returns the fallback value
`"ff"`, but the non-hex policy does not return its fallback value — the
one-parameter fallback lambda is called with two arguments, so the decode
raises `TypeError` instead of recovering locally. -/
theorem c8_text_decode_fallback :
    FixedString.from_row_binary
        (fixed_string_format "decode" asciiDecode asciiEncode "hex" fsBinaryConfig) 1 [255] 0 =
      Except.ok (Value.str "ff", 1) ∧
    FixedString.from_row_binary
        (fixed_string_format "decode" asciiDecode asciiEncode "raw" fsBinaryConfig) 1 [255] 0 =
      Except.error CHError.typeError :=
  ⟨rfl, rfl⟩
